import Mathlib

/-!
Verification of the line-context analysis and completion-state core of the
bpython repository (susinmotion/bpython) against its natural-language
specification.  The sources of `bpython/line.py` and `bpython/repl.py` are not
vendored under `src/` (only their test suites are), so the definitions below
are modelled from the specification's component design (spec.md §§3–4.9),
adjusted where the repository's own tests under `src/bpython/test/` pin the
behaviour.  Lines are embedded as `List Char`, cursor offsets as `Nat`, and
every scanner result as an optional `Span`.
-/

set_option maxRecDepth 4096

namespace Bpython

/-- Modelled from the spec: the universal scanner result type `Span`
(spec.md §3) of `bpython/line.py`, which is missing from `src/`:
a half-open character-index range into the line plus the covered text. -/
structure Span where
  start : Nat
  stop : Nat
  text : List Char
deriving DecidableEq, Repr

/-- The substring of `line` from index `s` (inclusive) to `e` (exclusive),
Python's `line[s:e]`. -/
def slice (line : List Char) (s e : Nat) : List Char :=
  (line.take e).drop s

/-- Build the span `(s, e, line[s:e])`. -/
def mkSpan (line : List Char) (s e : Nat) : Span :=
  ⟨s, e, slice line s e⟩

/-- Modelled from the spec: the identifier character class of the scanners of
`bpython/line.py` (missing from `src/`): alphanumerics, underscore and dot
(spec.md §4.2). -/
def wordChar (c : Char) : Bool :=
  c.isAlphanum || c = '_' || c = '.'

/-- An identifier character that is not a dot: one character of a single
segment of a dotted identifier run (spec.md §4.5). -/
def segChar (c : Char) : Bool :=
  wordChar c && !(c = '.')

/-- `charSat p line i` holds when index `i` is in range and `line[i]`
satisfies `p`. -/
def charSat (p : Char → Bool) (line : List Char) (i : Nat) : Bool :=
  match line.get? i with
  | some c => p c
  | none => false

/-- Scan left from index `i`: the smallest `j ≤ i` such that all characters
in `[j, i)` satisfy `p`. -/
def scanLeftP (p : Char → Bool) (line : List Char) : Nat → Nat
  | 0 => 0
  | i + 1 => if charSat p line i then scanLeftP p line i else i + 1

/-- Scan right from index `i` while characters satisfy `p`; `fuel` bounds the
number of steps. -/
def scanRightP (p : Char → Bool) (line : List Char) : Nat → Nat → Nat
  | 0, i => i
  | fuel + 1, i => if charSat p line i then scanRightP p line fuel (i + 1) else i

theorem scanLeftP_le (p : Char → Bool) (line : List Char) :
    ∀ i, scanLeftP p line i ≤ i := by
  intro i
  induction i with
  | zero => simp [scanLeftP]
  | succ n ih =>
    simp only [scanLeftP]
    split
    · exact Nat.le_trans ih (Nat.le_succ n)
    · exact Nat.le_refl _

theorem le_scanRightP (p : Char → Bool) (line : List Char) :
    ∀ fuel i, i ≤ scanRightP p line fuel i := by
  intro fuel
  induction fuel with
  | zero => intro i; simp [scanRightP]
  | succ n ih =>
    intro i
    simp only [scanRightP]
    split
    · exact Nat.le_trans (Nat.le_succ i) (ih (i + 1))
    · exact Nat.le_refl _

theorem charSat_lt_length {p : Char → Bool} {line : List Char} {i : Nat}
    (h : charSat p line i = true) : i < line.length := by
  by_contra hge
  have hnone : line.get? i = none := List.get?_eq_none.mpr (Nat.le_of_not_lt hge)
  unfold charSat at h
  rw [hnone] at h
  exact absurd h (by simp)

theorem scanRightP_le (p : Char → Bool) (line : List Char) :
    ∀ fuel i, i ≤ line.length → scanRightP p line fuel i ≤ line.length := by
  intro fuel
  induction fuel with
  | zero => intro i hi; simpa [scanRightP] using hi
  | succ n ih =>
    intro i hi
    simp only [scanRightP]
    split
    · next hc => exact ih (i + 1) (charSat_lt_length hc)
    · exact hi

/-- Modelled from the spec: the raw index range of `current_word` of
`bpython/line.py` (missing from `src/`): if the character just left of the
cursor is an identifier character, the maximal identifier run around the
cursor, else nothing (spec.md §4.2). -/
def cwRange (cursor : Nat) (line : List Char) : Option (Nat × Nat) :=
  match cursor with
  | 0 => none
  | c + 1 =>
    if charSat wordChar line c then
      some (scanLeftP wordChar line (c + 1),
            scanRightP wordChar line line.length (c + 1))
    else none

/-- Modelled from the spec: `current_word` of `bpython/line.py` (missing from
`src/`): the maximal contiguous identifier span touching the cursor from the
left (spec.md §4.2). -/
def current_word (cursor : Nat) (line : List Char) : Option Span :=
  (cwRange cursor line).map (fun r => mkSpan line r.1 r.2)

theorem cwRange_bounds {cursor : Nat} {line : List Char} {s e : Nat}
    (hc : cursor ≤ line.length) (h : cwRange cursor line = some (s, e)) :
    s ≤ cursor ∧ cursor ≤ e ∧ e ≤ line.length := by
  cases cursor with
  | zero => exact absurd h (by simp [cwRange])
  | succ c =>
    simp only [cwRange] at h
    split at h
    · rw [Option.some.injEq, Prod.mk.injEq] at h
      obtain ⟨hs, he⟩ := h
      refine ⟨hs ▸ scanLeftP_le wordChar line (c + 1), ?_, ?_⟩
      · exact he ▸ le_scanRightP wordChar line line.length (c + 1)
      · exact he ▸ scanRightP_le wordChar line line.length (c + 1) hc
    · exact absurd h (by simp)

/-- A single or double quote character. -/
def isQuote (c : Char) : Bool :=
  c = '\'' || c = '"'

/-- The two characters after index `i` both equal `q`: index `i` starts a
triple quote (or closes one). -/
def tripleAt (line : List Char) (i : Nat) (q : Char) : Bool :=
  line.get? (i + 1) = some q && line.get? (i + 2) = some q

/-- Modelled from the spec: the quote-tracking pass of the BracketMatcher of
`bpython/line.py` (missing from `src/`), collecting the interior regions of
all string literals of the line, left to right (spec.md §4.1, §4.3).  A
backslash skips the next character; an unterminated string's region extends
to the end of the line.  `openq` carries the interior start, quote character
and tripleness of a currently open string. -/
def strScan (line : List Char) :
    Nat → Nat → Option (Nat × Char × Bool) → List (Nat × Nat) → List (Nat × Nat)
  | 0, _, openq, acc =>
    (match openq with
     | some (s, _, _) => acc ++ [(s, line.length)]
     | none => acc)
  | fuel + 1, i, openq, acc =>
    match line.get? i with
    | none =>
      (match openq with
       | some (s, _, _) => acc ++ [(s, line.length)]
       | none => acc)
    | some c =>
      match openq with
      | none =>
        if isQuote c then
          if tripleAt line i c then strScan line fuel (i + 3) (some (i + 3, c, true)) acc
          else strScan line fuel (i + 1) (some (i + 1, c, false)) acc
        else strScan line fuel (i + 1) none acc
      | some (s, q, triple) =>
        if c = '\\' then strScan line fuel (i + 2) openq acc
        else if c = q then
          if triple then
            if tripleAt line i q then strScan line fuel (i + 3) none (acc ++ [(s, i)])
            else strScan line fuel (i + 1) openq acc
          else strScan line fuel (i + 1) none (acc ++ [(s, i)])
        else strScan line fuel (i + 1) openq acc

/-- The interior regions of all string literals of the line. -/
def stringRegions (line : List Char) : List (Nat × Nat) :=
  strScan line (line.length + 1) 0 none []

/-- Modelled from the spec: `current_string` of `bpython/line.py` (missing
from `src/`): the quote-delimited span enclosing the cursor, quotes
excluded, unterminated strings extending to end of line (spec.md §4.3). -/
def current_string (cursor : Nat) (line : List Char) : Option Span :=
  match (stringRegions line).find? (fun r => decide (r.1 ≤ cursor) && decide (cursor ≤ r.2)) with
  | some r => some (mkSpan line r.1 r.2)
  | none => none

theorem strScan_stop_le (line : List Char) :
    ∀ fuel i openq acc, (∀ r ∈ acc, r.2 ≤ line.length) →
    ∀ r ∈ strScan line fuel i openq acc, r.2 ≤ line.length := by
  intro fuel
  induction fuel with
  | zero =>
    intro i openq acc hacc r hr
    cases openq with
    | none => simp only [strScan] at hr; exact hacc r hr
    | some st =>
      obtain ⟨s, q, t⟩ := st
      simp only [strScan] at hr
      rcases List.mem_append.mp hr with h | h
      · exact hacc r h
      · rw [List.mem_singleton] at h; subst h; exact Nat.le_refl _
  | succ n ih =>
    intro i openq acc hacc r hr
    cases hg : line.get? i with
    | none =>
      cases openq with
      | none => simp only [strScan, hg] at hr; exact hacc r hr
      | some st =>
        obtain ⟨s, q, t⟩ := st
        simp only [strScan, hg] at hr
        rcases List.mem_append.mp hr with h | h
        · exact hacc r h
        · rw [List.mem_singleton] at h; subst h; exact Nat.le_refl _
    | some c =>
      have hlt : i < line.length := by
        by_contra hge
        rw [List.get?_eq_none.mpr (Nat.le_of_not_lt hge)] at hg
        exact absurd hg (by simp)
      cases openq with
      | none =>
        simp only [strScan, hg] at hr
        split at hr
        · split at hr
          · exact ih _ _ _ hacc r hr
          · exact ih _ _ _ hacc r hr
        · exact ih _ _ _ hacc r hr
      | some st =>
        obtain ⟨s, q, triple⟩ := st
        simp only [strScan, hg] at hr
        split at hr
        · exact ih _ _ _ hacc r hr
        · split at hr
          · split at hr
            · split at hr
              · refine ih _ _ _ ?_ r hr
                intro r' hr'
                rcases List.mem_append.mp hr' with h | h
                · exact hacc r' h
                · rw [List.mem_singleton] at h; subst h; exact Nat.le_of_lt hlt
              · exact ih _ _ _ hacc r hr
            · refine ih _ _ _ ?_ r hr
              intro r' hr'
              rcases List.mem_append.mp hr' with h | h
              · exact hacc r' h
              · rw [List.mem_singleton] at h; subst h; exact Nat.le_of_lt hlt
          · exact ih _ _ _ hacc r hr

theorem stringRegions_stop_le (line : List Char) :
    ∀ r ∈ stringRegions line, r.2 ≤ line.length :=
  strScan_stop_le line (line.length + 1) 0 none [] (by simp)

/-- An opening bracket. -/
def isOpenB (c : Char) : Bool :=
  c = '(' || c = '[' || c = '{'

/-- A closing bracket. -/
def isCloseB (c : Char) : Bool :=
  c = ')' || c = ']' || c = '}'

/-- `closeMatch o c` holds when `c` is the closing bracket matching the
opening bracket `o`. -/
def closeMatch (o c : Char) : Bool :=
  (o = '(' && c = ')') || (o = '[' && c = ']') || (o = '{' && c = '}')

/-- Modelled from the spec: the bracket-tracking pass of the BracketMatcher
shared by `bpython/line.py` and `bpython/repl.py` (both missing from
`src/`): scan left to right, quote scanning taking precedence (brackets
inside strings are inert), maintaining the stack of open brackets with
their positions; a closing bracket that does not match the top of the stack
marks the line malformed (spec.md §4.1, §7(b)).  Returns the final stack
(most recent first) and the malformedness flag. -/
def bracketScan (line : List Char) :
    Nat → Nat → Option (Char × Bool) → List (Char × Nat) → Bool →
    List (Char × Nat) × Bool
  | 0, _, _, stack, bad => (stack, bad)
  | fuel + 1, i, openq, stack, bad =>
    match line.get? i with
    | none => (stack, bad)
    | some c =>
      match openq with
      | some (q, triple) =>
        if c = '\\' then bracketScan line fuel (i + 2) openq stack bad
        else if c = q then
          if triple then
            if tripleAt line i q then bracketScan line fuel (i + 3) none stack bad
            else bracketScan line fuel (i + 1) openq stack bad
          else bracketScan line fuel (i + 1) none stack bad
        else bracketScan line fuel (i + 1) openq stack bad
      | none =>
        if isQuote c then
          if tripleAt line i c then bracketScan line fuel (i + 3) (some (c, true)) stack bad
          else bracketScan line fuel (i + 1) (some (c, false)) stack bad
        else if isOpenB c then bracketScan line fuel (i + 1) none ((c, i) :: stack) bad
        else if isCloseB c then
          match stack with
          | (o, p) :: rest =>
            if closeMatch o c then bracketScan line fuel (i + 1) none rest bad
            else bracketScan line fuel (i + 1) none ((o, p) :: rest) true
          | [] => bracketScan line fuel (i + 1) none [] true
        else bracketScan line fuel (i + 1) none stack bad

/-- The open-bracket stack and malformedness flag at the end of `line`. -/
def bracketState (line : List Char) : List (Char × Nat) × Bool :=
  bracketScan line (line.length + 1) 0 none [] false

theorem bracketScan_pos_lt (line : List Char) :
    ∀ fuel i openq stack bad, (∀ e ∈ stack, e.2 < line.length) →
    ∀ e ∈ (bracketScan line fuel i openq stack bad).1, e.2 < line.length := by
  intro fuel
  induction fuel with
  | zero => intro i openq stack bad hst e he; exact hst e he
  | succ n ih =>
    intro i openq stack bad hst e he
    cases hg : line.get? i with
    | none => simp only [bracketScan, hg] at he; exact hst e he
    | some c =>
      have hlt : i < line.length := by
        by_contra hge
        rw [List.get?_eq_none.mpr (Nat.le_of_not_lt hge)] at hg
        exact absurd hg (by simp)
      cases openq with
      | some st =>
        obtain ⟨q, triple⟩ := st
        simp only [bracketScan, hg] at he
        split at he
        · exact ih _ _ _ _ hst e he
        · split at he
          · split at he
            · split at he
              · exact ih _ _ _ _ hst e he
              · exact ih _ _ _ _ hst e he
            · exact ih _ _ _ _ hst e he
          · exact ih _ _ _ _ hst e he
      | none =>
        simp only [bracketScan, hg] at he
        split at he
        · split at he
          · exact ih _ _ _ _ hst e he
          · exact ih _ _ _ _ hst e he
        · split at he
          · refine ih _ _ _ _ ?_ e he
            intro e' he'
            rcases List.mem_cons.mp he' with h | h
            · subst h; exact hlt
            · exact hst e' h
          · split at he
            · cases stack with
              | nil => exact ih _ _ _ _ (by simp) e he
              | cons hd tl =>
                obtain ⟨o, p⟩ := hd
                simp only [] at he
                split at he
                · refine ih _ _ _ _ ?_ e he
                  intro e' he'
                  exact hst e' (List.mem_cons_of_mem _ he')
                · exact ih _ _ _ _ hst e he
            · exact ih _ _ _ _ hst e he

theorem bracketState_pos_lt (line : List Char) :
    ∀ e ∈ (bracketState line).1, e.2 < line.length :=
  bracketScan_pos_lt line (line.length + 1) 0 none [] false (by simp)

/-- Modelled from the spec: `current_dict_key` of `bpython/line.py` (missing
from `src/`): the interior of the nearest enclosing unmatched `[` left of
the cursor, up to the cursor, provided the bracket is immediately preceded
by an identifier/attribute chain; malformed nesting degrades to `none`
(spec.md §4.4). -/
def current_dict_key (cursor : Nat) (line : List Char) : Option Span :=
  match bracketState (line.take cursor) with
  | (_, true) => none
  | (stack, false) =>
    match stack.find? (fun e => decide (e.1 = '[')) with
    | some (_, p) =>
      if 0 < p ∧ charSat wordChar line (p - 1) then some (mkSpan line (p + 1) cursor)
      else none
    | none => none

/-- Modelled from the spec: `current_dict` of `bpython/line.py` (missing from
`src/`): the identifier/attribute chain immediately preceding the nearest
enclosing unmatched `[` left of the cursor (spec.md §4.4). -/
def current_dict (cursor : Nat) (line : List Char) : Option Span :=
  match bracketState (line.take cursor) with
  | (_, true) => none
  | (stack, false) =>
    match stack.find? (fun e => decide (e.1 = '[')) with
    | some (_, p) =>
      if 0 < p ∧ charSat wordChar line (p - 1) then
        some (mkSpan line (scanLeftP wordChar line p) p)
      else none
    | none => none

/-- Modelled from the spec: `current_object` of `bpython/line.py` (missing
from `src/`): within the identifier run of `current_word`, the prefix
before the last dot preceding the rightmost segment touching the cursor
(spec.md §4.5); the repository's tests (`TestCurrentObject`) fix the span
to exclude that trailing dot. -/
def current_object (cursor : Nat) (line : List Char) : Option Span :=
  match cwRange cursor line with
  | none => none
  | some (s, _) =>
    if s < scanLeftP segChar line cursor then
      some (mkSpan line s (scanLeftP segChar line cursor - 1))
    else none

/-- Modelled from the spec: `current_object_attribute` of `bpython/line.py`
(missing from `src/`): the trailing segment after the last dot of the
identifier run of `current_word` (spec.md §4.5). -/
def current_object_attribute (cursor : Nat) (line : List Char) : Option Span :=
  match cwRange cursor line with
  | none => none
  | some (s, _) =>
    if s < scanLeftP segChar line cursor then
      some (mkSpan line (scanLeftP segChar line cursor)
              (scanRightP segChar line line.length cursor))
    else none

/-- A token of the lightweight lexical recognizers: its start index and its
text (an identifier/dotted-name run, or a single non-space character). -/
structure Tok where
  start : Nat
  text : List Char
deriving DecidableEq, Repr

/-- Flush the in-progress word accumulator (start index and reversed
characters) into a token list. -/
def flushTok : Option (Nat × List Char) → List Tok
  | none => []
  | some (s, w) => [⟨s, w.reverse⟩]

/-- Modelled from the spec: the tokenization used by the import-statement
recognizers of `bpython/line.py` (missing from `src/`): identifier/dotted
runs are single tokens, spaces are skipped, and any other character is a
one-character token (spec.md §4.6). -/
def tokenizeAux : List Char → Nat → Option (Nat × List Char) → List Tok
  | [], _, cur => flushTok cur
  | c :: rest, i, cur =>
    if wordChar c then
      match cur with
      | none => tokenizeAux rest (i + 1) (some (i, [c]))
      | some (s, w) => tokenizeAux rest (i + 1) (some (s, c :: w))
    else if c = ' ' then flushTok cur ++ tokenizeAux rest (i + 1) none
    else flushTok cur ++ ⟨i, [c]⟩ :: tokenizeAux rest (i + 1) none

/-- All tokens of a line. -/
def tokenize (line : List Char) : List Tok :=
  tokenizeAux line 0 none

/-- A statement separator token (`:` or `;`). -/
def isSepTok (t : Tok) : Bool :=
  t.text = [':'] || t.text = [';']

/-- Modelled from the spec: the statement containing the position `ws`, i.e.
the tokens after the last `:`/`;` token starting before `ws` (spec.md
§4.6: statements are the units the import recognizers operate on). -/
def stmtTokensAux : List Tok → Nat → List Tok → List Tok
  | [], _, acc => acc.reverse
  | t :: rest, ws, acc =>
    if isSepTok t && decide (t.start < ws) then stmtTokensAux rest ws []
    else stmtTokensAux rest ws (t :: acc)

/-- Tokens of the statement containing position `ws`. -/
def stmtTokens (toks : List Tok) (ws : Nat) : List Tok :=
  stmtTokensAux toks ws []

/-- A token that is an identifier or dotted-name run. -/
def isWordTok (t : Tok) : Bool :=
  match t.text with
  | c :: _ => wordChar c
  | [] => false

/-- A dot-free identifier token. -/
def plainTok (t : Tok) : Bool :=
  isWordTok t && !(t.text.contains '.')

/-- A comma token. -/
def commaTok (t : Tok) : Bool :=
  t.text = [',']

/-- Modelled from the spec: membership of the cursor word (starting at `ws`)
in a comma-separated name list of an import statement; when
`plainRequired` is set the cursor's own entry must be dot-free, matching
the repository's tests, which reject a dotted continuation in a
`from ... import` name list (spec.md §4.6). -/
def inNameList (plainRequired : Bool) : List Tok → Nat → Bool
  | t :: rest, ws =>
    if t.start = ws then (if plainRequired then plainTok t else isWordTok t)
    else
      match rest with
      | c :: rest2 => isWordTok t && commaTok c && inNameList plainRequired rest2 ws
      | [] => false
  | [], _ => false

/-- Modelled from the spec: `current_from_import_from` of `bpython/line.py`
(missing from `src/`): for a `from <module> import <names>` statement, the
module-path span, when the cursor word is the module path or one of the
imported names; a bare `from <module>` also matches (spec.md §4.6). -/
def current_from_import_from (cursor : Nat) (line : List Char) : Option Span :=
  match cwRange cursor line with
  | none => none
  | some (ws, _) =>
    match stmtTokens (tokenize line) ws with
    | tf :: tm :: rest =>
      if tf.text = "from".toList && isWordTok tm then
        if tm.start = ws then some (mkSpan line tm.start (tm.start + tm.text.length))
        else
          match rest with
          | ti :: names =>
            if ti.text = "import".toList && inNameList true names ws then
              some (mkSpan line tm.start (tm.start + tm.text.length))
            else none
          | [] => none
      else none
    | _ => none

/-- Modelled from the spec: `current_from_import_import` of `bpython/line.py`
(missing from `src/`): the span of the imported-name segment containing
the cursor in the name list of a `from ... import ...` statement (spec.md
§4.6). -/
def current_from_import_import (cursor : Nat) (line : List Char) : Option Span :=
  match cwRange cursor line with
  | none => none
  | some (ws, we) =>
    match stmtTokens (tokenize line) ws with
    | tf :: tm :: ti :: names =>
      if tf.text = "from".toList && isWordTok tm && ti.text = "import".toList
          && inNameList true names ws then
        some (mkSpan line ws we)
      else none
    | _ => none

/-- Modelled from the spec: `current_import` of `bpython/line.py` (missing
from `src/`): the span of the dotted-name segment containing the cursor
among the comma-separated entries of an `import ...` statement (spec.md
§4.6). -/
def current_import (cursor : Nat) (line : List Char) : Option Span :=
  match cwRange cursor line with
  | none => none
  | some (ws, we) =>
    match stmtTokens (tokenize line) ws with
    | ti :: names =>
      if ti.text = "import".toList && inNameList false names ws then
        some (mkSpan line ws we)
      else none
    | _ => none

theorem tokenizeAux_bound (n : Nat) :
    ∀ (l : List Char) (i : Nat) (cur : Option (Nat × List Char)),
    i + l.length ≤ n →
    (∀ s w, cur = some (s, w) → s + w.length ≤ i) →
    ∀ t ∈ tokenizeAux l i cur, t.start + t.text.length ≤ n := by
  intro l
  induction l with
  | nil =>
    intro i cur hn hcur t ht
    cases cur with
    | none => exact absurd ht (by simp [tokenizeAux, flushTok])
    | some sw =>
      obtain ⟨s, w⟩ := sw
      simp only [tokenizeAux, flushTok, List.mem_singleton] at ht
      subst ht
      simp only [List.length_reverse]
      exact Nat.le_trans (hcur s w rfl) (by simpa using hn)
  | cons c rest ih =>
    intro i cur hn hcur t ht
    simp only [tokenizeAux] at ht
    split at ht
    · cases cur with
      | none =>
        refine ih (i + 1) _ (by simpa [Nat.add_right_comm] using hn) ?_ t ht
        intro s w hsw
        rw [Option.some.injEq, Prod.mk.injEq] at hsw
        obtain ⟨hs, hw⟩ := hsw
        subst hs; subst hw
        simp
      | some sw =>
        obtain ⟨s, w⟩ := sw
        refine ih (i + 1) _ (by simpa [Nat.add_right_comm] using hn) ?_ t ht
        intro s2 w2 hsw
        rw [Option.some.injEq, Prod.mk.injEq] at hsw
        obtain ⟨hs, hw⟩ := hsw
        subst hs; subst hw
        have := hcur s w rfl
        simp only [List.length_cons]
        omega
    · split at ht
      · rcases List.mem_append.mp ht with h | h
        · cases cur with
          | none => exact absurd h (by simp [flushTok])
          | some sw =>
            obtain ⟨s, w⟩ := sw
            simp only [flushTok, List.mem_singleton] at h
            subst h
            simp only [List.length_reverse]
            have := hcur s w rfl
            omega
        · exact ih (i + 1) none (by simpa [Nat.add_right_comm] using hn) (by simp) t h
      · rcases List.mem_append.mp ht with h | h
        · cases cur with
          | none => exact absurd h (by simp [flushTok])
          | some sw =>
            obtain ⟨s, w⟩ := sw
            simp only [flushTok, List.mem_singleton] at h
            subst h
            simp only [List.length_reverse]
            have := hcur s w rfl
            omega
        · rcases List.mem_cons.mp h with h2 | h2
          · subst h2
            show i + [c].length ≤ n
            simp only [List.length_cons] at hn
            simp only [List.length_singleton]
            omega
          · exact ih (i + 1) none (by simpa [Nat.add_right_comm] using hn) (by simp) t h2

theorem tokenize_bound (line : List Char) :
    ∀ t ∈ tokenize line, t.start + t.text.length ≤ line.length :=
  tokenizeAux_bound line.length line 0 none (by simp) (by simp)

theorem stmtTokensAux_subset :
    ∀ (toks : List Tok) (ws : Nat) (acc : List Tok),
    ∀ t ∈ stmtTokensAux toks ws acc, t ∈ toks ∨ t ∈ acc := by
  intro toks
  induction toks with
  | nil =>
    intro ws acc t ht
    simp only [stmtTokensAux, List.mem_reverse] at ht
    exact Or.inr ht
  | cons hd tl ih =>
    intro ws acc t ht
    simp only [stmtTokensAux] at ht
    split at ht
    · rcases ih ws [] t ht with h | h
      · exact Or.inl (List.mem_cons_of_mem _ h)
      · exact absurd h (by simp)
    · rcases ih ws (hd :: acc) t ht with h | h
      · exact Or.inl (List.mem_cons_of_mem _ h)
      · rcases List.mem_cons.mp h with h2 | h2
        · exact Or.inl (h2 ▸ List.mem_cons_self _ _)
        · exact Or.inr h2

theorem stmtTokens_subset (toks : List Tok) (ws : Nat) :
    ∀ t ∈ stmtTokens toks ws, t ∈ toks := by
  intro t ht
  rcases stmtTokensAux_subset toks ws [] t ht with h | h
  · exact h
  · exact absurd h (by simp)

/-- The active parameter of a call: a positional index, or the keyword name
typed so far (spec.md §3, `ArgspecResult.active_parameter`). -/
inductive ArgPos
  | positional : Nat → ArgPos
  | keyword : List Char → ArgPos
deriving DecidableEq, Repr

/-- Modelled from the spec: the lexical part of `ArgspecResult` produced by
`Repl.get_args` of `bpython/repl.py` (missing from `src/`): the candidate
function name before the active opening paren and the active parameter at
the cursor.  Signature resolution through the external CallableResolver
capability is opaque to the core (spec.md §4.7) and is not modelled. -/
structure ArgspecResult where
  funcName : List Char
  argPos : ArgPos
deriving DecidableEq, Repr

/-- Index `i` lies in one of the (interior) string regions `rs`. -/
def inRegions (rs : List (Nat × Nat)) (i : Nat) : Bool :=
  rs.any (fun r => decide (r.1 ≤ i) && decide (i < r.2))

/-- The characters of the keyword `lambda`. -/
def lambdaWord : List Char :=
  ['l', 'a', 'm', 'b', 'd', 'a']

/-- Modelled from the spec: the parameter-position count of `Repl.get_args`
of `bpython/repl.py` (missing from `src/`): scan forward from after the
active opening paren to the cursor, counting top-level commas outside
strings, nested brackets and a lambda's parameter list; a top-level `=`
switches the result to the keyword name typed just before it; a top-level
`lambda` suppresses comma counting until its body's `:` (spec.md §4.7).
`curw` accumulates the current word reversed; `rs` are the string regions
of the scanned prefix. -/
def argScan (line : List Char) (rs : List (Nat × Nat)) (stop : Nat) :
    Nat → Nat → Nat → List Char → Bool → Nat → Option (List Char) → ArgPos
  | 0, _, _, _, _, pos, kw =>
    (match kw with
     | some k => ArgPos.keyword k
     | none => ArgPos.positional pos)
  | fuel + 1, i, depth, curw, inLam, pos, kw =>
    if i < stop then
      if inRegions rs i then argScan line rs stop fuel (i + 1) depth [] inLam pos kw
      else
        let c := line.getD i ' '
        if wordChar c then argScan line rs stop fuel (i + 1) depth (c :: curw) inLam pos kw
        else
          let inLam2 := if depth = 0 ∧ curw.reverse = lambdaWord then true else inLam
          if isOpenB c then argScan line rs stop fuel (i + 1) (depth + 1) [] inLam2 pos kw
          else if isCloseB c then argScan line rs stop fuel (i + 1) (depth - 1) [] inLam2 pos kw
          else if c = ',' ∧ depth = 0 ∧ inLam2 = false then
            argScan line rs stop fuel (i + 1) depth [] inLam2 (pos + 1) none
          else if c = '=' ∧ depth = 0 ∧ inLam2 = false ∧ curw ≠ [] then
            argScan line rs stop fuel (i + 1) depth [] inLam2 pos (some curw.reverse)
          else if c = ':' ∧ depth = 0 ∧ inLam2 = true then
            argScan line rs stop fuel (i + 1) depth [] false pos kw
          else argScan line rs stop fuel (i + 1) depth [] inLam2 pos kw
    else
      (match kw with
       | some k => ArgPos.keyword k
       | none => ArgPos.positional pos)

/-- Modelled from the spec: the lexical core of `Repl.get_args` of
`bpython/repl.py` (missing from `src/`): find the innermost unmatched `(`
left of the cursor via the BracketMatcher (malformed nesting degrades to
`none`, spec.md §4.7 and §7(b)), take the identifier chain before it as
the candidate function name, and count the active parameter from the
paren to the cursor. -/
def get_args (cursor : Nat) (line : List Char) : Option ArgspecResult :=
  let pre := line.take cursor
  match bracketState pre with
  | (_, true) => none
  | (stack, false) =>
    match stack.find? (fun e => decide (e.1 = '(')) with
    | none => none
    | some (_, p) =>
      let ws := scanLeftP wordChar line p
      if ws = p then none
      else
        some ⟨slice line ws p,
              argScan line (stringRegions pre) cursor (cursor + 1) (p + 1) 0 [] false 0 none⟩

/-- Modelled from the spec: the `MatchesIterator` of `bpython/repl.py`
(missing from `src/`): an ordered candidate list with a selection index,
`none` meaning no selection has been made yet (spec.md §3, §4.8).  The
captured `orig_line`/`orig_cursor_offset`/`current_word` context does not
affect the navigation transitions and is not modelled. -/
structure MatchesIterator where
  matchList : List String
  index : Option Nat
deriving DecidableEq, Repr

/-- Modelled from the spec: `MatchesIterator.next` (spec.md §4.8): from the
unselected state enter index 0; otherwise advance the index modulo the
number of matches.  Returns the match now selected and the new state. -/
def MatchesIterator.next (m : MatchesIterator) : Option String × MatchesIterator :=
  let j := match m.index with
           | none => 0
           | some i => (i + 1) % m.matchList.length
  (m.matchList.get? j, ⟨m.matchList, some j⟩)

/-- Modelled from the spec: `MatchesIterator.previous` (spec.md §4.8): from
the unselected state enter the last index; otherwise step back modulo the
number of matches. -/
def MatchesIterator.previous (m : MatchesIterator) : Option String × MatchesIterator :=
  let j := match m.index with
           | none => m.matchList.length - 1
           | some i => (i + m.matchList.length - 1) % m.matchList.length
  (m.matchList.get? j, ⟨m.matchList, some j⟩)

/-- Modelled from the spec: `MatchesIterator.current` (spec.md §4.8, §7(c)):
fails with an invalid-state error when no selection has been made,
otherwise returns the selected match. -/
def MatchesIterator.current (m : MatchesIterator) : Except String String :=
  match m.index with
  | none => Except.error "No current match."
  | some i =>
    match m.matchList.get? i with
    | some s => Except.ok s
    | none => Except.error "No current match."

/-- Modelled from the spec: the `History` buffer of `bpython/repl.py`
(missing from `src/`): persisted entries oldest first, an index with `0`
the newest position and `entries.length` the oldest boundary, and the
transient in-progress slot (spec.md §3, §4.9). -/
structure History where
  entries : List String
  index : Nat
  entered : String
deriving DecidableEq, Repr

/-- The entry the history points to at index `i`: the transient slot at `0`,
else `entries[len - i]` (spec.md §4.9). -/
def History.entryAt (h : History) (i : Nat) : String :=
  if i = 0 then h.entered else h.entries.getD (h.entries.length - i) ""

/-- Modelled from the spec: `History.back` (spec.md §4.9): increment the
index toward older entries, clamped at `entries.length`, returning the
entry now pointed to. -/
def History.back (h : History) : String × History :=
  let i := min (h.index + 1) h.entries.length
  (h.entryAt i, { h with index := i })

/-- Modelled from the spec: `History.forward` (spec.md §4.9): decrement the
index toward the newest position, clamped at 0, returning the entry now
pointed to (the transient slot at index 0). -/
def History.forward (h : History) : String × History :=
  let i := h.index - 1
  (h.entryAt i, { h with index := i })

/-- Modelled from the spec: `History.first` (spec.md §4.9): navigate to the
start boundary, index `entries.length`. -/
def History.first (h : History) : History :=
  { h with index := h.entries.length }

/-- Modelled from the spec: `History.last` (spec.md §4.9): navigate to the
newest position, index 0. -/
def History.last (h : History) : History :=
  { h with index := 0 }

/-- Strip all trailing newline characters, Python's `s.rstrip('\n')`. -/
def rstripNL (s : String) : String :=
  ⟨(s.data.reverse.dropWhile (fun c => c = '\n')).reverse⟩

/-- Modelled from the spec and the repository's tests
(`TestHistory.test_append`): `History.append` of `bpython/repl.py`
(missing from `src/`): strip trailing newlines from the value, drop the
append entirely when nothing remains (the double-blank-line guard), else
push the stripped value as the newest entry; either way reset the index
to 0 (spec.md §4.9). -/
def History.append (h : History) (v : String) : History :=
  let v2 := rstripNL v
  if v2 = "" then { h with index := 0 }
  else { entries := h.entries ++ [v2], index := 0, entered := h.entered }

/-- Modelled from the spec: `History.enter` (spec.md §4.9): set the transient
slot without persisting. -/
def History.enter (h : History) (v : String) : History :=
  { h with entered := v }

/-- Modelled from the spec: `History.reset` (spec.md §4.9): clear the
transient slot and reset the index to 0. -/
def History.reset (h : History) : History :=
  { h with entered := "", index := 0 }

/-- Modelled from the spec and the repository's tests
(`TestHistory.test_is_at_start`/`test_is_at_end`): the boundary predicate
that is true at index 0, the newest position. -/
def History.is_at_start (h : History) : Bool :=
  h.index == 0

/-- Modelled from the spec and the repository's tests: the boundary
predicate that is true once the index has been clamped at
`entries.length`, the oldest boundary. -/
def History.is_at_end (h : History) : Bool :=
  h.entries.length ≤ h.index

/-- Iterate the state part of `History.back`. -/
def backIter : Nat → History → History
  | 0, h => h
  | k + 1, h => backIter k (h.back).2

/-- The history of `TestHistory`: seeded with the 1000 entries
`#0` … `#999`, oldest first. -/
def hist1000 : History :=
  ⟨(List.range 1000).map (fun n => "#" ++ toString n), 0, ""⟩

/-- The Span invariant of spec.md §3 and §8, relative to a line. -/
def SpanOk (line : List Char) (sp : Span) : Prop :=
  sp.start ≤ sp.stop ∧ sp.stop ≤ line.length ∧ sp.text = slice line sp.start sp.stop

theorem spanOk_mk {line : List Char} {a b : Nat} (h1 : a ≤ b)
    (h2 : b ≤ line.length) : SpanOk line (mkSpan line a b) :=
  ⟨h1, h2, rfl⟩

theorem current_word_spanOk {cursor : Nat} {line : List Char} {sp : Span}
    (hc : cursor ≤ line.length) (h : current_word cursor line = some sp) :
    SpanOk line sp := by
  unfold current_word at h
  cases hr : cwRange cursor line with
  | none => rw [hr] at h; exact absurd h (by simp)
  | some r =>
    obtain ⟨a, b⟩ := r
    rw [hr] at h
    simp only [Option.map_some', Option.some.injEq] at h
    obtain ⟨h1, h2, h3⟩ := cwRange_bounds hc hr
    subst h
    exact spanOk_mk (Nat.le_trans h1 h2) h3

theorem current_string_spanOk {cursor : Nat} {line : List Char} {sp : Span}
    (h : current_string cursor line = some sp) : SpanOk line sp := by
  unfold current_string at h
  cases hf : (stringRegions line).find?
      (fun r => decide (r.1 ≤ cursor) && decide (cursor ≤ r.2)) with
  | none => rw [hf] at h; exact absurd h (by simp)
  | some r =>
    obtain ⟨a, b⟩ := r
    rw [hf] at h
    rw [Option.some.injEq] at h
    subst h
    have hp := List.find?_some hf
    simp only [Bool.and_eq_true, decide_eq_true_eq] at hp
    have hb := stringRegions_stop_le line _ (List.mem_of_find?_eq_some hf)
    exact spanOk_mk (Nat.le_trans hp.1 hp.2) hb

theorem current_dict_key_spanOk {cursor : Nat} {line : List Char} {sp : Span}
    (hc : cursor ≤ line.length) (h : current_dict_key cursor line = some sp) :
    SpanOk line sp := by
  unfold current_dict_key at h
  rcases hbs : bracketState (line.take cursor) with ⟨stack, bad⟩
  rw [hbs] at h
  cases bad with
  | true => exact absurd h (by simp)
  | false =>
    simp only [] at h
    cases hf : stack.find? (fun e => decide (e.1 = '[')) with
    | none => rw [hf] at h; exact absurd h (by simp)
    | some e =>
      obtain ⟨c, p⟩ := e
      rw [hf] at h
      simp only [] at h
      split at h
      · rw [Option.some.injEq] at h
        subst h
        have hp : p < (line.take cursor).length := by
          have hall := bracketState_pos_lt (line.take cursor)
          rw [hbs] at hall
          exact hall _ (List.mem_of_find?_eq_some hf)
        rw [List.length_take] at hp
        exact spanOk_mk (by omega) hc
      · exact absurd h (by simp)

theorem current_dict_spanOk {cursor : Nat} {line : List Char} {sp : Span}
    (hc : cursor ≤ line.length) (h : current_dict cursor line = some sp) :
    SpanOk line sp := by
  unfold current_dict at h
  rcases hbs : bracketState (line.take cursor) with ⟨stack, bad⟩
  rw [hbs] at h
  cases bad with
  | true => exact absurd h (by simp)
  | false =>
    simp only [] at h
    cases hf : stack.find? (fun e => decide (e.1 = '[')) with
    | none => rw [hf] at h; exact absurd h (by simp)
    | some e =>
      obtain ⟨c, p⟩ := e
      rw [hf] at h
      simp only [] at h
      split at h
      · rw [Option.some.injEq] at h
        subst h
        have hp : p < (line.take cursor).length := by
          have hall := bracketState_pos_lt (line.take cursor)
          rw [hbs] at hall
          exact hall _ (List.mem_of_find?_eq_some hf)
        rw [List.length_take] at hp
        exact spanOk_mk (scanLeftP_le wordChar line p) (by omega)
      · exact absurd h (by simp)

theorem current_object_spanOk {cursor : Nat} {line : List Char} {sp : Span}
    (hc : cursor ≤ line.length) (h : current_object cursor line = some sp) :
    SpanOk line sp := by
  unfold current_object at h
  cases hr : cwRange cursor line with
  | none => rw [hr] at h; exact absurd h (by simp)
  | some r =>
    obtain ⟨s, e⟩ := r
    rw [hr] at h
    simp only [] at h
    split at h
    · rename_i hlt
      rw [Option.some.injEq] at h
      subst h
      have hb := scanLeftP_le segChar line cursor
      exact spanOk_mk (by omega) (by omega)
    · exact absurd h (by simp)

theorem current_object_attribute_spanOk {cursor : Nat} {line : List Char}
    {sp : Span} (hc : cursor ≤ line.length)
    (h : current_object_attribute cursor line = some sp) : SpanOk line sp := by
  unfold current_object_attribute at h
  cases hr : cwRange cursor line with
  | none => rw [hr] at h; exact absurd h (by simp)
  | some r =>
    obtain ⟨s, e⟩ := r
    rw [hr] at h
    simp only [] at h
    split at h
    · rename_i hlt
      rw [Option.some.injEq] at h
      subst h
      have hb := scanLeftP_le segChar line cursor
      have hr2 := le_scanRightP segChar line line.length cursor
      have hr3 := scanRightP_le segChar line line.length cursor hc
      exact spanOk_mk (by omega) hr3
    · exact absurd h (by simp)

theorem current_from_import_from_spanOk {cursor : Nat} {line : List Char}
    {sp : Span} (hc : cursor ≤ line.length)
    (h : current_from_import_from cursor line = some sp) : SpanOk line sp := by
  unfold current_from_import_from at h
  cases hr : cwRange cursor line with
  | none => rw [hr] at h; exact absurd h (by simp)
  | some r =>
    obtain ⟨ws, we⟩ := r
    rw [hr] at h
    simp only [] at h
    cases hst : stmtTokens (tokenize line) ws with
    | nil => rw [hst] at h; exact absurd h (by simp)
    | cons tf tl =>
      cases tl with
      | nil => rw [hst] at h; exact absurd h (by simp)
      | cons tm rest =>
        rw [hst] at h
        simp only [] at h
        have htm : tm ∈ tokenize line := by
          refine stmtTokens_subset (tokenize line) ws tm ?_
          rw [hst]
          exact List.mem_cons_of_mem _ (List.mem_cons_self _ _)
        have hbound := tokenize_bound line tm htm
        split at h
        · split at h
          · rw [Option.some.injEq] at h
            subst h
            exact spanOk_mk (Nat.le_add_right _ _) hbound
          · cases rest with
            | nil => exact absurd h (by simp)
            | cons ti names =>
              simp only [] at h
              split at h
              · rw [Option.some.injEq] at h
                subst h
                exact spanOk_mk (Nat.le_add_right _ _) hbound
              · exact absurd h (by simp)
        · exact absurd h (by simp)

theorem current_from_import_import_spanOk {cursor : Nat} {line : List Char}
    {sp : Span} (hc : cursor ≤ line.length)
    (h : current_from_import_import cursor line = some sp) : SpanOk line sp := by
  unfold current_from_import_import at h
  cases hr : cwRange cursor line with
  | none => rw [hr] at h; exact absurd h (by simp)
  | some r =>
    obtain ⟨ws, we⟩ := r
    rw [hr] at h
    simp only [] at h
    obtain ⟨h1, h2, h3⟩ := cwRange_bounds hc hr
    cases hst : stmtTokens (tokenize line) ws with
    | nil => rw [hst] at h; exact absurd h (by simp)
    | cons tf tl =>
      cases tl with
      | nil => rw [hst] at h; exact absurd h (by simp)
      | cons tm tl2 =>
        cases tl2 with
        | nil => rw [hst] at h; exact absurd h (by simp)
        | cons ti names =>
          rw [hst] at h
          simp only [] at h
          split at h
          · rw [Option.some.injEq] at h
            subst h
            exact spanOk_mk (Nat.le_trans h1 h2) h3
          · exact absurd h (by simp)

theorem current_import_spanOk {cursor : Nat} {line : List Char} {sp : Span}
    (hc : cursor ≤ line.length) (h : current_import cursor line = some sp) :
    SpanOk line sp := by
  unfold current_import at h
  cases hr : cwRange cursor line with
  | none => rw [hr] at h; exact absurd h (by simp)
  | some r =>
    obtain ⟨ws, we⟩ := r
    rw [hr] at h
    simp only [] at h
    obtain ⟨h1, h2, h3⟩ := cwRange_bounds hc hr
    cases hst : stmtTokens (tokenize line) ws with
    | nil => rw [hst] at h; exact absurd h (by simp)
    | cons ti names =>
      rw [hst] at h
      simp only [] at h
      split at h
      · rw [Option.some.injEq] at h
        subst h
        exact spanOk_mk (Nat.le_trans h1 h2) h3
      · exact absurd h (by simp)

/-- The nine scanner operations of the ContextScanner (spec.md §2). -/
inductive ScannerOp
  | word
  | str
  | dictKey
  | dict
  | obj
  | objAttr
  | fromImportFrom
  | fromImportImport
  | imprt
deriving DecidableEq, Repr

/-- Dispatch a scanner operation. -/
def runScanner : ScannerOp → Nat → List Char → Option Span
  | ScannerOp.word => current_word
  | ScannerOp.str => current_string
  | ScannerOp.dictKey => current_dict_key
  | ScannerOp.dict => current_dict
  | ScannerOp.obj => current_object
  | ScannerOp.objAttr => current_object_attribute
  | ScannerOp.fromImportFrom => current_from_import_from
  | ScannerOp.fromImportImport => current_from_import_import
  | ScannerOp.imprt => current_import

/-- C1: for every scanner operation (current_word, current_string,
current_dict_key, current_dict, current_object, current_object_attribute,
current_from_import_from, current_from_import_import, current_import) and
every input `(cursor_offset, line)` with `0 ≤ cursor_offset ≤ len(line)`,
if the result is a Span `(start, stop, text)` rather than `none`, then
`0 ≤ start ≤ stop ≤ len(line)` and `line[start:stop] = text`. -/
theorem scanners_span_invariant (op : ScannerOp) (cursor : Nat)
    (line : List Char) (hc : cursor ≤ line.length) (sp : Span)
    (h : runScanner op cursor line = some sp) :
    sp.start ≤ sp.stop ∧ sp.stop ≤ line.length ∧
      sp.text = slice line sp.start sp.stop := by
  cases op with
  | word => exact current_word_spanOk hc h
  | str => exact current_string_spanOk h
  | dictKey => exact current_dict_key_spanOk hc h
  | dict => exact current_dict_spanOk hc h
  | obj => exact current_object_spanOk hc h
  | objAttr => exact current_object_attribute_spanOk hc h
  | fromImportFrom => exact current_from_import_from_spanOk hc h
  | fromImportImport => exact current_from_import_import_spanOk hc h
  | imprt => exact current_import_spanOk hc h

/-- Witness for C1: the invariant instantiated at `current_word` on the line
`asdf` with the cursor at its end. -/
theorem scanners_span_invariant_witness :
    4 ≤ "asdf".toList.length ∧
      runScanner ScannerOp.word 4 "asdf".toList = some ⟨0, 4, "asdf".toList⟩ ∧
      ((⟨0, 4, "asdf".toList⟩ : Span).start ≤ (⟨0, 4, "asdf".toList⟩ : Span).stop ∧
        (⟨0, 4, "asdf".toList⟩ : Span).stop ≤ "asdf".toList.length ∧
        (⟨0, 4, "asdf".toList⟩ : Span).text =
          slice "asdf".toList (⟨0, 4, "asdf".toList⟩ : Span).start
            (⟨0, 4, "asdf".toList⟩ : Span).stop) :=
  ⟨by decide, by decide,
    scanners_span_invariant ScannerOp.word 4 "asdf".toList (by decide)
      ⟨0, 4, "asdf".toList⟩ (by decide)⟩

/-- C2: on each of the malformed-bracket lines `spam(]`, `spam([)` and
`spam())` with the cursor at end of line, the argspec resolver degrades to
`none` (no active call) instead of failing. -/
theorem get_args_malformed_brackets_degrade :
    get_args 6 "spam(]".toList = none ∧
      get_args 7 "spam([)".toList = none ∧
      get_args 7 "spam())".toList = none :=
  ⟨by decide, by decide, by decide⟩

/-- C3: with the cursor at end of line, on `spam(a=0` the active parameter is
the keyword name `a`, and on `spam(lambda a, b: 1, ` it is positional
index 1 (the lambda's own commas are not top-level argument separators). -/
theorem get_args_active_parameter :
    (get_args 8 "spam(a=0".toList).map ArgspecResult.argPos =
        some (ArgPos.keyword "a".toList) ∧
      (get_args 21 "spam(lambda a, b: 1, ".toList).map ArgspecResult.argPos =
        some (ArgPos.positional 1) :=
  ⟨by decide, by decide⟩

/-- C4 counterexample: on `Object.attr1` with the cursor at end of line,
`current_object` does not return the span `(0, 7)` covering `Object.`
(dot included) as claimed; it returns `(0, 6)` covering `Object`. -/
theorem current_object_includes_dot_refuted :
    current_object 12 "Object.attr1".toList =
        some ⟨0, 6, "Object".toList⟩ ∧
      current_object 12 "Object.attr1".toList ≠
        some ⟨0, 7, "Object.".toList⟩ :=
  ⟨by decide, by decide⟩

/-- C4 amended: on `Object.attr1` with the cursor at end of line,
`current_object` returns the span `(0, 6)` covering `Object` — everything
up to but excluding the last dot before the rightmost segment touching the
cursor — and `current_object_attribute` returns the span covering
`attr1`. -/
theorem current_object_excludes_dot :
    current_object 12 "Object.attr1".toList =
        some ⟨0, 6, "Object".toList⟩ ∧
      current_object_attribute 12 "Object.attr1".toList =
        some ⟨7, 12, "attr1".toList⟩ :=
  ⟨by decide, by decide⟩

/-- C8: on `asdf[(1, 2)]` with the cursor just before the closing bracket,
`current_dict_key` returns the bracket's whole interior `(1, 2)` as one
span, not a piece truncated at the comma. -/
theorem current_dict_key_tuple_whole :
    current_dict_key 11 "asdf[(1, 2)]".toList =
      some ⟨5, 11, "(1, 2)".toList⟩ := by
  decide

/-- The matches iterator of `TestMatchesIterator`, before any selection. -/
def bobbyIter : MatchesIterator :=
  ⟨["bobby", "bobbies", "bobberina"], none⟩

/-- C5: over a non-empty match list `next` advances the selection index
modulo the list length (entering index 0 from the unselected state and
wrapping to 0 after the last index) and `previous` is symmetric (entering
and wrapping to the last index); concretely, over
`[bobby, bobbies, bobberina]` four successive `next` calls return
`bobby, bobbies, bobberina, bobby`. -/
theorem matches_iterator_cycles (ms : List String) (hne : ms ≠ [])
    (i : Nat) (hi : i < ms.length) :
    ((MatchesIterator.next ⟨ms, none⟩).2.index = some 0 ∧
      (MatchesIterator.next ⟨ms, some i⟩).2.index = some ((i + 1) % ms.length) ∧
      (MatchesIterator.next ⟨ms, some (ms.length - 1)⟩).2.index = some 0 ∧
      (MatchesIterator.previous ⟨ms, none⟩).2.index = some (ms.length - 1) ∧
      (MatchesIterator.previous ⟨ms, some i⟩).2.index =
        some ((i + ms.length - 1) % ms.length) ∧
      (MatchesIterator.previous ⟨ms, some 0⟩).2.index = some (ms.length - 1)) ∧
    ((bobbyIter.next).1 = some "bobby" ∧
      (bobbyIter.next.2.next).1 = some "bobbies" ∧
      (bobbyIter.next.2.next.2.next).1 = some "bobberina" ∧
      (bobbyIter.next.2.next.2.next.2.next).1 = some "bobby") := by
  have hpos : 0 < ms.length := List.length_pos.mpr hne
  refine ⟨⟨rfl, rfl, ?_, rfl, rfl, ?_⟩, by decide, by decide, by decide, by decide⟩
  · show some ((ms.length - 1 + 1) % ms.length) = some 0
    rw [Nat.sub_add_cancel hpos, Nat.mod_self]
  · show some ((0 + ms.length - 1) % ms.length) = some (ms.length - 1)
    rw [Nat.zero_add, Nat.mod_eq_of_lt (by omega)]

/-- Witness for C5: the cycle behaviour instantiated over the concrete list
`[bobby, bobbies, bobberina]` at index 1. -/
theorem matches_iterator_cycles_witness :
    (MatchesIterator.next ⟨["bobby", "bobbies", "bobberina"], none⟩).2.index =
      some 0 :=
  (matches_iterator_cycles ["bobby", "bobbies", "bobberina"] (by decide) 1
    (by decide)).1.1

/-- C6: `current` called before any selection fails with the invalid-state
error, and after a `next` it returns the currently selected match. -/
theorem matches_iterator_current_empty_errors (ms : List String)
    (st : Option Nat) (hne : ms ≠ []) :
    (MatchesIterator.current ⟨ms, none⟩ = Except.error "No current match.") ∧
      ∃ v : String, (MatchesIterator.next ⟨ms, st⟩).1 = some v ∧
        (MatchesIterator.next ⟨ms, st⟩).2.current = Except.ok v := by
  have hpos : 0 < ms.length := List.length_pos.mpr hne
  refine ⟨rfl, ?_⟩
  cases st with
  | none =>
    refine ⟨ms.get ⟨0, hpos⟩, ?_, ?_⟩
    · exact List.get?_eq_get hpos
    · show MatchesIterator.current ⟨ms, some 0⟩ = _
      simp only [MatchesIterator.current]
      rw [List.get?_eq_get hpos]
  | some i =>
    have hj : (i + 1) % ms.length < ms.length := Nat.mod_lt _ hpos
    refine ⟨ms.get ⟨(i + 1) % ms.length, hj⟩, ?_, ?_⟩
    · exact List.get?_eq_get hj
    · show MatchesIterator.current ⟨ms, some ((i + 1) % ms.length)⟩ = _
      simp only [MatchesIterator.current]
      rw [List.get?_eq_get hj]

/-- Witness for C6: the invalid-state error on the concrete unselected
iterator over `[bobby, bobbies, bobberina]`. -/
theorem matches_iterator_current_empty_errors_witness :
    MatchesIterator.current ⟨["bobby", "bobbies", "bobberina"], none⟩ =
      Except.error "No current match." :=
  (matches_iterator_current_empty_errors ["bobby", "bobbies", "bobberina"]
    (some 0) (by decide)).1

theorem backIter_spec (k : Nat) :
    ∀ h : History, h.index ≤ h.entries.length →
      backIter k h = ⟨h.entries, min (h.index + k) h.entries.length, h.entered⟩ := by
  induction k with
  | zero =>
    intro h hle
    obtain ⟨es, i, en⟩ := h
    simp only at hle
    have hmin : min (i + 0) es.length = i := by omega
    show backIter 0 ⟨es, i, en⟩ = ⟨es, min (i + 0) es.length, en⟩
    rw [hmin]
    rfl
  | succ k ih =>
    intro h hle
    obtain ⟨es, i, en⟩ := h
    simp only at hle
    have hb : backIter (k + 1) ⟨es, i, en⟩ =
        backIter k ⟨es, min (i + 1) es.length, en⟩ := rfl
    rw [hb, ih ⟨es, min (i + 1) es.length, en⟩ (by simp)]
    have hmin : min (min (i + 1) es.length + k) es.length =
        min (i + (k + 1)) es.length := by omega
    show (⟨es, min (min (i + 1) es.length + k) es.length, en⟩ : History) = _
    rw [hmin]

theorem hist1000_entries_getD (k : Nat) (hk : k < 1000) :
    hist1000.entries.getD k "" = "#" ++ toString k := by
  have hk2 : k < hist1000.entries.length := by
    simp [hist1000]
    omega
  rw [List.getD_eq_getElem _ _ hk2]
  simp [hist1000, List.getElem_map, List.getElem_range]

/-- C7: for the history seeded with the 1000 entries `#0` … `#999`, the
first `back` call returns `#999`, the 1000th returns `#0`, and a further
`back` call returns `#0` again without error — the index is clamped at the
number of entries. -/
theorem back_val (es : List String) (i : Nat) (en : String) :
    ((⟨es, i, en⟩ : History).back).1 =
      (if min (i + 1) es.length = 0 then en
       else es.getD (es.length - min (i + 1) es.length) "") := rfl

theorem history_back_clamped_thousand :
    (hist1000.back).1 = "#999" ∧
      ((backIter 999 hist1000).back).1 = "#0" ∧
      ((backIter 1000 hist1000).back).1 = "#0" := by
  have hlen : hist1000.entries.length = 1000 := by simp [hist1000]
  have hzero : hist1000.index = 0 := rfl
  refine ⟨?_, ?_, ?_⟩
  · show ((⟨hist1000.entries, hist1000.index, hist1000.entered⟩ : History).back).1 = _
    rw [back_val, hzero, hlen]
    rw [show min (0 + 1) 1000 = 1 from by decide]
    rw [if_neg (by decide)]
    rw [show (1000 : Nat) - 1 = 999 from by decide]
    rw [hist1000_entries_getD 999 (by decide)]
    decide
  · rw [backIter_spec 999 hist1000 (by rw [hlen]; exact Nat.zero_le _)]
    rw [back_val, hzero, hlen]
    rw [show min (min (0 + 999) 1000 + 1) 1000 = 1000 from by decide]
    rw [if_neg (by decide)]
    rw [show (1000 : Nat) - 1000 = 0 from by decide]
    rw [hist1000_entries_getD 0 (by decide)]
    decide
  · rw [backIter_spec 1000 hist1000 (by rw [hlen]; exact Nat.zero_le _)]
    rw [back_val, hzero, hlen]
    rw [show min (min (0 + 1000) 1000 + 1) 1000 = 1000 from by decide]
    rw [if_neg (by decide)]
    rw [show (1000 : Nat) - 1000 = 0 from by decide]
    rw [hist1000_entries_getD 0 (by decide)]
    decide

/-- C9: appending a value ending in a newline stores it with the trailing
newline stripped, and the following blank append is dropped by the guard:
after the two appends, `back` returns the stripped value. -/
theorem history_append_strips_newline (h : History) :
    (((h.append "print \"foo\n\"\n").append "\n").back).1 =
      "print \"foo\n\"" := by
  have e1 : h.append "print \"foo\n\"\n" =
      ⟨h.entries ++ ["print \"foo\n\""], 0, h.entered⟩ := by
    unfold History.append
    rw [show rstripNL "print \"foo\n\"\n" = "print \"foo\n\"" from by decide]
    rw [if_neg (by decide)]
  have e2 : ∀ h2 : History, h2.append "\n" = { h2 with index := 0 } := by
    intro h2
    unfold History.append
    rw [show rstripNL "\n" = "" from by decide]
    rw [if_pos rfl]
  rw [e1, e2]
  show History.entryAt _ (min (0 + 1) (h.entries ++ ["print \"foo\n\""]).length) = _
  have hlen : (h.entries ++ ["print \"foo\n\""]).length = h.entries.length + 1 := by
    simp
  rw [hlen, Nat.min_eq_left (by omega)]
  unfold History.entryAt
  rw [if_neg (by omega)]
  show (h.entries ++ ["print \"foo\n\""]).getD
      ((h.entries ++ ["print \"foo\n\""]).length - 1) "" = _
  rw [hlen, show h.entries.length + 1 - 1 = h.entries.length from by omega]
  rw [List.getD_eq_getElem _ _ (by simp)]
  simp

/-- Witness for C9: the stripped-append behaviour at the empty history. -/
theorem history_append_strips_newline_witness :
    ((((⟨[], 0, ""⟩ : History).append "print \"foo\n\"\n").append "\n").back).1 =
      "print \"foo\n\"" :=
  history_append_strips_newline ⟨[], 0, ""⟩

/-- C10: the boundary predicates are named opposite to the navigation
methods: after `first` (index at `entries.length`, the oldest boundary)
`is_at_end` is true and `is_at_start` is false; after `last` (index 0, the
newest position) `is_at_start` is true and `is_at_end` is false; one
`forward` after `first` makes `is_at_end` false again. -/
theorem history_boundary_predicates_inverted (h : History)
    (hne : h.entries ≠ []) :
    (h.first).is_at_end = true ∧ (h.first).is_at_start = false ∧
      (h.last).is_at_start = true ∧ (h.last).is_at_end = false ∧
      ((h.first).forward).2.is_at_end = false := by
  obtain ⟨es, i, en⟩ := h
  have hpos : 0 < es.length := List.length_pos.mpr (by simpa using hne)
  refine ⟨?_, ?_, ?_, ?_, ?_⟩
  · simp [History.first, History.is_at_end]
  · simp only [History.first, History.is_at_start, beq_eq_false_iff_ne, ne_eq]
    omega
  · simp [History.last, History.is_at_start]
  · simp only [History.last, History.is_at_end, decide_eq_false_iff_not]
    omega
  · simp only [History.first, History.forward, History.is_at_end,
      decide_eq_false_iff_not]
    omega

/-- Witness for C10: the predicate inversion on a concrete two-entry
history. -/
theorem history_boundary_predicates_inverted_witness :
    ((⟨["a", "b"], 0, ""⟩ : History).first).is_at_end = true :=
  (history_boundary_predicates_inverted ⟨["a", "b"], 0, ""⟩ (by decide)).1

end Bpython
